import Mathlib

/-!
# The string library of go-lua (`string.go`): find, match, gmatch, gsub

A shallow embedding of `relativePosition`, `findHelper`, `luaPatternToGoRegex`,
`expandLuaReplacement`, `strMatch`, `gmatch` and `gsub`.

* A Go `string` is a sequence of bytes: `List Nat`, every element standing for one byte.
* A Go `int` is an `Int`; the two places where 64-bit wrap-around can be reached
  (`-pos` in `relativePosition`, `init - 1` in `strMatch`) go through `wrapInt`.
* The Lua stack is replaced by explicit arguments and an explicit result value.
-/

namespace GoLua

/-! ## Byte strings -/

/-- The bytes of an ASCII literal (one byte per character). -/
def lit (s : String) : List Nat := s.toList.map Char.toNat

/-- Go slice expression `s[i:j]`. -/
def slice (s : List Nat) (i j : Nat) : List Nat := (s.take j).drop i

/-- Go `int` is 64 bits wide: the value an arithmetic result wraps to. -/
def wrapInt (x : Int) : Int := (x + 2 ^ 63) % 2 ^ 64 - 2 ^ 63

/-- Go `strings.Index(s, substr)` searched from offset `i` of the original string:
the offset of the first instance of `substr`, or `none` where Go returns `-1`. -/
def indexFrom (substr : List Nat) : List Nat → Nat → Option Nat
  | [], i => if substr.isPrefixOf [] then some i else none
  | b :: t, i => if substr.isPrefixOf (b :: t) then some i else indexFrom substr t (i + 1)

/-- Go `strings.Index(s, substr)`; `none` stands for `-1`. -/
def stringsIndex (s substr : List Nat) : Option Nat := indexFrom substr s 0

/-- The bytes of `"^$*+?.([%-"`. -/
def magicChars : List Nat := [94, 36, 42, 43, 63, 46, 40, 91, 37, 45]

/-- Go `strings.ContainsAny(p, "^$*+?.([%-")`: the set is ASCII, so the test is bytewise. -/
def containsAnyMagic (p : List Nat) : Bool := p.any (fun b => magicChars.contains b)

/-! ## `relativePosition` and `findHelper` -/

/-- Source: `relativePosition`. -/
def relativePosition (pos length : Int) : Int :=
  if pos ≥ 0 then pos
  else if wrapInt (-pos) > length then 0
  else length + pos + 1

/-- What `findHelper` leaves on the Lua stack. -/
inductive FindResult where
  /-- Result of `l.PushNil()`. -/
  | nil
  /-- The two pushed integers. -/
  | range (first last : Int)
  /-- Result of `l.assert(false)`, the branch marked `TODO implement pattern matching`. -/
  | assertFailed
  deriving DecidableEq, Repr

/-- The part of `findHelper` after `init` has been clamped: the plain search of
`s[init-1:]`, or the unimplemented pattern-matching branch. -/
def findFrom (s p : List Nat) (init : Int) (plain : Option Bool) (isFind : Bool) : FindResult :=
  let isPlain : Bool := match plain with
    | none => true
    | some b => b
  if isFind && (isPlain || !containsAnyMagic p) then
    match stringsIndex (s.drop (init - 1).toNat) p with
    | some start => FindResult.range (start + init) (start + init + p.length - 1)
    | none => FindResult.nil
  else FindResult.assertFailed

/-- Source: `findHelper`. `init` is argument 3 (`none` when omitted, `OptInteger(l, 3, 1)`),
`plain` is argument 4 (`none` when omitted, `TypeOf(4) == TypeNone`; otherwise its
`ToBoolean` value). -/
def findHelper (s p : List Nat) (init : Option Int) (plain : Option Bool) (isFind : Bool) :
    FindResult :=
  let init0 := relativePosition (init.getD 1) s.length
  if init0 < 1 then findFrom s p 1 plain isFind
  else if init0 > (s.length : Int) + 1 then FindResult.nil
  else findFrom s p init0 plain isFind

/-- The library entry `find`: `findHelper(l, true)`. -/
def find (s p : List Nat) (init : Option Int) (plain : Option Bool) : FindResult :=
  findHelper s p init plain true

/-- Pattern `p` occurs in `s` as a contiguous substring at the 1-based index `k`. -/
def OccursAt (s p : List Nat) (k : Int) : Prop :=
  ∃ a b : List Nat, s = a ++ p ++ b ∧ (a.length : Int) + 1 = k

/-- The start offset the claim describes for `init`. -/
def startOf (s : List Nat) (init : Int) : Int :=
  if init > 0 then init else if init = 0 then 1 else max 1 (s.length + init + 1)

/-! ## UTF-8: what `for _, ch := range s` and `WriteRune` do -/

/-- Go `utf8.RuneError`, U+FFFD. -/
def runeError : Nat := 0xFFFD

/-- A continuation byte, `0x80 ..= 0xBF`. -/
def isCont (b : Nat) : Bool := 0x80 ≤ b && b ≤ 0xBF

/-- Lower end of the range Go's `acceptRanges` allows for the second byte after `b0`. -/
def acceptLo (b0 : Nat) : Nat := if b0 = 0xE0 then 0xA0 else if b0 = 0xF0 then 0x90 else 0x80

/-- Upper end of the range Go's `acceptRanges` allows for the second byte after `b0`. -/
def acceptHi (b0 : Nat) : Nat := if b0 = 0xED then 0x9F else if b0 = 0xF4 then 0x8F else 0xBF

/-- Go `utf8.DecodeRuneInString`: the rune at the head of `s` and its width in bytes.
The first byte fixes the size and the range accepted for the second byte; an invalid or
truncated encoding yields `(RuneError, 1)`, the empty string `(RuneError, 0)`. -/
def decodeRune : List Nat → Nat × Nat
  | [] => (runeError, 0)
  | b0 :: t =>
    if b0 < 0x80 then (b0, 1)
    else if 0xC2 ≤ b0 ∧ b0 < 0xE0 then
      match t with
      | b1 :: _ =>
        if isCont b1 then ((b0 % 32) * 64 + b1 % 64, 2) else (runeError, 1)
      | [] => (runeError, 1)
    else if 0xE0 ≤ b0 ∧ b0 < 0xF0 then
      match t with
      | b1 :: b2 :: _ =>
        if acceptLo b0 ≤ b1 ∧ b1 ≤ acceptHi b0 ∧ isCont b2 then
          ((b0 % 16) * 4096 + (b1 % 64) * 64 + b2 % 64, 3)
        else (runeError, 1)
      | _ => (runeError, 1)
    else if 0xF0 ≤ b0 ∧ b0 < 0xF5 then
      match t with
      | b1 :: b2 :: b3 :: _ =>
        if acceptLo b0 ≤ b1 ∧ b1 ≤ acceptHi b0 ∧ isCont b2 ∧ isCont b3 then
          ((b0 % 8) * 262144 + (b1 % 64) * 4096 + (b2 % 64) * 64 + b3 % 64, 4)
        else (runeError, 1)
      | _ => (runeError, 1)
    else (runeError, 1)

/-- Go `utf8.AppendRune`, the bytes `WriteRune(r)` appends. -/
def encodeRune (r : Nat) : List Nat :=
  if r < 0x80 then [r]
  else if r < 0x800 then [0xC0 + r / 64, 0x80 + r % 64]
  else if 0x10FFFF < r ∨ (0xD800 ≤ r ∧ r ≤ 0xDFFF) then [0xEF, 0xBF, 0xBD]
  else if r < 0x10000 then [0xE0 + r / 4096, 0x80 + r / 64 % 64, 0x80 + r % 64]
  else [0xF0 + r / 262144, 0x80 + r / 4096 % 64, 0x80 + r / 64 % 64, 0x80 + r % 64]

/-- The runes a `range` loop over the string visits, each with its width; `skip` counts the
bytes of the current rune still to be passed over. -/
def rangeDecodeAux : Nat → List Nat → List (Nat × Nat)
  | _, [] => []
  | skip + 1, _ :: t => rangeDecodeAux skip t
  | 0, b :: t => decodeRune (b :: t) :: rangeDecodeAux ((decodeRune (b :: t)).2 - 1) t

/-- The runes visited by `for _, ch := range s`. -/
def rangeRunes (s : List Nat) : List Nat := (rangeDecodeAux 0 s).map Prod.fst

/-! ## The `regexp` package, as far as `string.go` uses it -/

/-- The index slice a match yields: `a[0]`, `a[1]` locate the whole match, `groups` holds one
entry per capturing group, `none` for a group that took no part (Go pads these with `-1`). -/
structure Match where
  first : Nat
  last : Nat
  groups : List (Option (Nat × Nat))
  deriving DecidableEq, Repr

/-- A compiled `*regexp.Regexp`: `doExecute src pos` is the leftmost match of `src` found
searching from byte offset `pos`, with offsets relative to the start of `src`. -/
structure Regexp where
  doExecute : List Nat → Nat → Option Match

/-- The errors of `regexp/syntax` that the executable instance below produces, and a mark for
patterns using syntax that instance does not cover. -/
inductive CompileError where
  | invalidUTF8
  | trailingBackslash
  | missingRepeatArgument
  | invalidRepeatOp
  | unexpectedParen
  | outsideModel
  deriving DecidableEq, Repr

/-- The `regexp` package: `regexp.Compile`. -/
structure RegexpPackage where
  compile : List Nat → Except CompileError Regexp

/-- Every match lies inside the searched text, at or after the search position. -/
def Regexp.InRange (re : Regexp) : Prop :=
  ∀ (src : List Nat) (pos : Nat) (m : Match), re.doExecute src pos = some m →
    pos ≤ m.first ∧ m.first ≤ m.last ∧ m.last ≤ src.length

/-- Go `re.FindStringSubmatch(s)`: the text of the whole match followed by the text of each
group (`""` for a group that took no part); `none` is the nil slice of a failed search. -/
def Regexp.findStringSubmatch (re : Regexp) (s : List Nat) : Option (List (List Nat)) :=
  match re.doExecute s 0 with
  | none => none
  | some m => some (slice s m.first m.last ::
      m.groups.map (fun g => match g with
        | some (a, b) => slice s a b
        | none => []))

/-- How far a run of the `replaceAll` loop got. -/
inductive Run (α : Type) where
  | done (a : α)
  /-- A Go run-time panic (index out of range) inside the callback. -/
  | panicked
  /-- The iteration bound of the model was used up. -/
  | outOfFuel
  deriving Repr

/-- The loop of Go `(*Regexp).replaceAll` as driven by `ReplaceAllStringFunc`; `st` is the
state the callback closes over. -/
def replaceAllLoop {σ : Type} (re : Regexp) (src : List Nat)
    (repl : σ → List Nat → Option (List Nat × σ)) :
    Nat → Nat → Nat → List Nat → σ → Run (List Nat × σ)
  | 0, _, _, _, _ => Run.outOfFuel
  | fuel + 1, lastMatchEnd, searchPos, buf, st =>
    if searchPos ≤ src.length then
      match re.doExecute src searchPos with
      | none => Run.done (buf ++ src.drop lastMatchEnd, st)
      | some m =>
        let buf1 := buf ++ slice src lastMatchEnd m.first
        let step : Option (List Nat × σ) :=
          if m.last > lastMatchEnd ∨ m.first = 0 then
            match repl st (slice src m.first m.last) with
            | some (r, st1) => some (buf1 ++ r, st1)
            | none => none
          else some (buf1, st)
        match step with
        | none => Run.panicked
        | some (buf2, st2) =>
          let width := (decodeRune (src.drop searchPos)).2
          let searchPos1 :=
            if searchPos + width > m.last then searchPos + width
            else if searchPos + 1 > m.last then searchPos + 1
            else m.last
          replaceAllLoop re src repl fuel m.last searchPos1 buf2 st2
    else Run.done (buf ++ src.drop lastMatchEnd, st)

/-- Go `re.ReplaceAllStringFunc(src, repl)` with the callback state threaded through. The
search position grows by at least one per round, so `len(src) + 2` rounds are enough. -/
def replaceAllStringFunc {σ : Type} (re : Regexp) (src : List Nat)
    (repl : σ → List Nat → Option (List Nat × σ)) (st : σ) : Run (List Nat × σ) :=
  replaceAllLoop re src repl (src.length + 2) 0 0 [] st

/-! ## `luaPatternToGoRegex` and `expandLuaReplacement` -/

/-- Loop state of `luaPatternToGoRegex`: the builder and the `escaped` flag. -/
structure Translate where
  out : List Nat
  escaped : Bool
  deriving DecidableEq, Repr

/-- One round of the loop of `luaPatternToGoRegex`. -/
def translateStep (st : Translate) (ch : Nat) : Translate :=
  if st.escaped then
    if ch = 100 then ⟨st.out ++ [92, 100], false⟩
    else if ch = 115 then ⟨st.out ++ [92, 115], false⟩
    else if ch = 119 then ⟨st.out ++ [92, 119], false⟩
    else if ch = 37 then ⟨st.out ++ encodeRune 37, false⟩
    else ⟨st.out ++ encodeRune ch, false⟩
  else if ch = 37 then ⟨st.out, true⟩
  else if ch = 46 then ⟨st.out ++ [46], false⟩
  else ⟨st.out ++ encodeRune ch, false⟩

/-- Source: `luaPatternToGoRegex`. The second component is the returned `error`, which the
source always sets to nil. -/
def luaPatternToGoRegex (pattern : List Nat) : List Nat × Option CompileError :=
  let st := (rangeRunes pattern).foldl translateStep ⟨[], false⟩
  (if st.escaped then st.out ++ encodeRune 37 else st.out, none)

/-- Loop state of `expandLuaReplacement`. -/
structure Expand where
  result : List Nat
  escaped : Bool
  deriving DecidableEq, Repr

/-- One round of the loop of `expandLuaReplacement`; `none` is the index-out-of-range panic
of `captures[0]` on an empty slice. -/
def expandStep (captures : List (List Nat)) (st : Option Expand) (ch : Nat) : Option Expand :=
  match st with
  | none => none
  | some st =>
    if st.escaped then
      if 49 ≤ ch ∧ ch ≤ 57 then
        if ch - 48 < captures.length then
          some ⟨st.result ++ captures.getD (ch - 48) [], false⟩
        else some ⟨st.result, false⟩
      else if ch = 48 then
        match captures with
        | c0 :: _ => some ⟨st.result ++ c0, false⟩
        | [] => none
      else some ⟨st.result ++ encodeRune ch, false⟩
    else if ch = 37 then some ⟨st.result, true⟩
    else some ⟨st.result ++ encodeRune ch, false⟩

/-- Source: `expandLuaReplacement`. -/
def expandLuaReplacement (repl : List Nat) (captures : List (List Nat)) : Option (List Nat) :=
  match (rangeRunes repl).foldl (expandStep captures) (some ⟨[], false⟩) with
  | none => none
  | some st => some (if st.escaped then st.result ++ encodeRune 37 else st.result)

/-! ## `strMatch`, `gmatch`, `gsub` -/

/-- A Lua error raised through `Errorf`, or a Go panic. -/
inductive LuaError where
  /-- Raised by `Errorf(l, "invalid pattern: %s", err.Error())`. -/
  | invalidPattern (e : CompileError)
  /-- Raised by `Errorf(l, "string/function/table expected, got %s", ...)`. -/
  | badReplacementType
  /-- A Go run-time panic. -/
  | panic
  /-- The iteration bound of the model was used up. -/
  | outOfFuel
  deriving DecidableEq, Repr

/-- What `strMatch` and the `gmatch` iterator leave on the Lua stack. -/
inductive MatchResult where
  /-- Result of `l.PushNil()`. -/
  | nil
  /-- The pushed strings. -/
  | values (vs : List (List Nat))
  /-- A raised error. -/
  | error (e : LuaError)
  deriving DecidableEq, Repr

/-- The part of `strMatch` after `init` has been clamped. -/
def strMatchFrom (E : RegexpPackage) (s pattern : List Nat) (init : Nat) : MatchResult :=
  match luaPatternToGoRegex pattern with
  | (_, some err) => MatchResult.error (LuaError.invalidPattern err)
  | (goPattern, none) =>
    match E.compile goPattern with
    | Except.error err => MatchResult.error (LuaError.invalidPattern err)
    | Except.ok re =>
      match re.doExecute (s.drop init) 0 with
      | none => MatchResult.nil
      | some m =>
        if m.groups.length > 0 then
          MatchResult.values (m.groups.map (fun g =>
            let lo : Int := match g with
              | some (a, _) => (a : Int) + init
              | none => -1 + init
            let hi : Int := match g with
              | some (_, b) => (b : Int) + init
              | none => -1 + init
            if lo ≠ -1 then slice s lo.toNat hi.toNat else []))
        else MatchResult.values [slice s (m.first + init) (m.last + init)]

/-- Source: `strMatch`. `init` is argument 3, `none` when omitted. -/
def strMatch (E : RegexpPackage) (s pattern : List Nat) (init : Option Int) : MatchResult :=
  let init0 := wrapInt (init.getD 1 - 1)
  if init0 < 0 then strMatchFrom E s pattern 0
  else if init0 > (s.length : Int) then MatchResult.nil
  else strMatchFrom E s pattern init0.toNat

/-- The closure `gmatch` returns: the compiled pattern and the captured variable `s`. -/
structure GmatchIter where
  re : Regexp
  s : List Nat

/-- Source: `gmatch`, up to the creation of the closure. -/
def gmatch (E : RegexpPackage) (s pattern : List Nat) : Except LuaError GmatchIter :=
  match luaPatternToGoRegex pattern with
  | (_, some err) => Except.error (LuaError.invalidPattern err)
  | (goPattern, none) =>
    match E.compile goPattern with
    | Except.error err => Except.error (LuaError.invalidPattern err)
    | Except.ok re => Except.ok ⟨re, s⟩

/-- Source: the closure inside `gmatch`, one call: the pushed values and the closure state
afterwards. -/
def gmatchNext (it : GmatchIter) : MatchResult × GmatchIter :=
  match it.re.findStringSubmatch it.s with
  | none => (MatchResult.nil, it)
  | some [] => (MatchResult.nil, it)
  | some (m0 :: groups) =>
    let it1 : GmatchIter := ⟨it.re, it.s.drop m0.length⟩
    if groups.length > 0 then (MatchResult.values groups, it1)
    else (MatchResult.values [m0], it1)

/-- The results of the first `n` calls of the iterator. -/
def gmatchCalls : Nat → GmatchIter → List MatchResult
  | 0, _ => []
  | n + 1, it => (gmatchNext it).1 :: gmatchCalls n (gmatchNext it).2

/-- Argument 3 of `gsub` by Lua type. A function stands for its call followed by
`l.ToString(-1)`, a table for its lookup followed by `l.ToString(-1)`. -/
inductive Repl where
  | str (repl : List Nat)
  | func (f : List (List Nat) → List Nat)
  | table (t : List Nat → List Nat)
  | other

/-- The closure `replacement` of `gsub`; `none` on the error branch of the type switch. -/
def replacementOf : Repl → Option (List (List Nat) → Option (List Nat))
  | Repl.str repl => some (fun captures => expandLuaReplacement repl captures)
  | Repl.func f => some (fun captures => some (f captures))
  | Repl.table t => some (fun captures =>
      match captures with
      | c0 :: _ => some (t c0)
      | [] => none)
  | Repl.other => none

/-- The callback `gsub` hands to `ReplaceAllStringFunc`; the state is `replacementCount`. -/
def gsubCallback (re : Regexp) (replacement : List (List Nat) → Option (List Nat))
    (maxReplacements : Int) (replacementCount : Int) (m : List Nat) :
    Option (List Nat × Int) :=
  if maxReplacements ≥ 0 ∧ replacementCount ≥ maxReplacements then some (m, replacementCount)
  else
    match replacement ((re.findStringSubmatch m).getD []) with
    | some r => some (r, replacementCount + 1)
    | none => none

/-- Source: `gsub`. `n` is argument 4 when it is a number (`none` otherwise). -/
def gsub (E : RegexpPackage) (s pattern : List Nat) (repl : Repl) (n : Option Int) :
    Except LuaError (List Nat × Int) :=
  match replacementOf repl with
  | none => Except.error LuaError.badReplacementType
  | some replacement =>
    let maxReplacements : Int := match n with
      | some k => k
      | none => -1
    match luaPatternToGoRegex pattern with
    | (_, some err) => Except.error (LuaError.invalidPattern err)
    | (goPattern, none) =>
      match E.compile goPattern with
      | Except.error err => Except.error (LuaError.invalidPattern err)
      | Except.ok re =>
        match replaceAllStringFunc re s (gsubCallback re replacement maxReplacements) 0 with
        | Run.done (result, replacementCount) => Except.ok (result, replacementCount)
        | Run.panicked => Except.error LuaError.panic
        | Run.outOfFuel => Except.error LuaError.outOfFuel

/-! ## An executable instance of the `regexp` package

Go's `regexp` lies outside `string.go`. The instance below covers the part of its syntax
that the evaluations in this file need: alternatives of concatenated items, an item being a
literal rune, `.`, a Perl class `\d \s \w \D \S \W` or an escaped punctuation character,
optionally followed by `*`, `+`, `?` or their lazy forms. A match is the leftmost one and,
at that offset, the one a backtracking search finds first (Go's leftmost-first rule).
Groups, bracket classes, counted repetition and anchors yield `CompileError.outsideModel`. -/

/-- A single-rune item. -/
inductive Atom where
  | lit (r : Nat)
  /-- The dot without the `s` flag: any rune but newline. -/
  | anyNotNL
  | digit (negated : Bool)
  | space (negated : Bool)
  | word (negated : Bool)
  deriving DecidableEq, Repr

/-- The repetition applied to an item; `greedy = false` is the form with a trailing `?`. -/
inductive Quant where
  | one
  | star (greedy : Bool)
  | plus (greedy : Bool)
  | quest (greedy : Bool)
  deriving DecidableEq, Repr

/-- An item with its repetition. -/
structure Piece where
  atom : Atom
  quant : Quant
  deriving DecidableEq, Repr

/-- What the parser has just read, which decides what a repetition operator may do. -/
inductive Last where
  /-- Start of the expression or of an alternative: nothing to repeat. -/
  | nothing
  /-- An item without a repetition operator. -/
  | item
  /-- An item that already carries a repetition operator. -/
  | repeated
  deriving DecidableEq, Repr

/-- Parser state: finished alternatives and the items of the current one, both reversed. -/
structure ParseState where
  alts : List (List Piece)
  cur : List Piece
  last : Last
  deriving Repr

/-- Push an item onto the current alternative. -/
def ParseState.push (st : ParseState) (a : Atom) : ParseState :=
  ⟨st.alts, ⟨a, Quant.one⟩ :: st.cur, Last.item⟩

/-- Apply a repetition operator to the item read last. -/
def ParseState.setQuant (st : ParseState) (q : Quant) : Except CompileError ParseState :=
  match st.last, st.cur with
  | Last.nothing, _ => Except.error CompileError.missingRepeatArgument
  | Last.repeated, _ => Except.error CompileError.invalidRepeatOp
  | Last.item, [] => Except.error CompileError.missingRepeatArgument
  | Last.item, pc :: rest => Except.ok ⟨st.alts, ⟨pc.atom, q⟩ :: rest, Last.repeated⟩

/-- The ASCII letters and digits. -/
def isalnum (c : Nat) : Bool :=
  (48 ≤ c && c ≤ 57) || (65 ≤ c && c ≤ 90) || (97 ≤ c && c ≤ 122)

/-- The item `\c` stands for. -/
def escapeAtom (c : Nat) : Except CompileError Atom :=
  if c = 100 then Except.ok (Atom.digit false)
  else if c = 68 then Except.ok (Atom.digit true)
  else if c = 115 then Except.ok (Atom.space false)
  else if c = 83 then Except.ok (Atom.space true)
  else if c = 119 then Except.ok (Atom.word false)
  else if c = 87 then Except.ok (Atom.word true)
  else if c < 128 ∧ isalnum c = false then Except.ok (Atom.lit c)
  else Except.error CompileError.outsideModel

/-- The parse loop of `regexp/syntax` over the decoded runes `(rune, width)` of the
expression, restricted to the covered syntax. -/
def parseRunes : List (Nat × Nat) → ParseState → Except CompileError (List (List Piece))
  | [], st => Except.ok ((st.cur.reverse :: st.alts).reverse)
  | [(r, w)], st =>
    if r = runeError ∧ w = 1 then Except.error CompileError.invalidUTF8
    else if r = 92 then Except.error CompileError.trailingBackslash
    else if r = 124 then parseRunes [] ⟨st.cur.reverse :: st.alts, [], Last.nothing⟩
    else if r = 42 then
      match st.setQuant (Quant.star true) with
      | Except.ok st1 => parseRunes [] st1
      | Except.error e => Except.error e
    else if r = 43 then
      match st.setQuant (Quant.plus true) with
      | Except.ok st1 => parseRunes [] st1
      | Except.error e => Except.error e
    else if r = 63 then
      match st.setQuant (Quant.quest true) with
      | Except.ok st1 => parseRunes [] st1
      | Except.error e => Except.error e
    else if r = 41 then Except.error CompileError.unexpectedParen
    else if r = 40 ∨ r = 91 ∨ r = 123 ∨ r = 94 ∨ r = 36 then
      Except.error CompileError.outsideModel
    else if r = 46 then parseRunes [] (st.push Atom.anyNotNL)
    else parseRunes [] (st.push (Atom.lit r))
  | (r, w) :: (r1, w1) :: rest, st =>
    if r = runeError ∧ w = 1 then Except.error CompileError.invalidUTF8
    else if r = 92 then
      if r1 = runeError ∧ w1 = 1 then Except.error CompileError.invalidUTF8
      else
        match escapeAtom r1 with
        | Except.ok a => parseRunes rest (st.push a)
        | Except.error e => Except.error e
    else if r = 124 then
      parseRunes ((r1, w1) :: rest) ⟨st.cur.reverse :: st.alts, [], Last.nothing⟩
    else if r = 42 then
      match st.setQuant (Quant.star (r1 != 63)) with
      | Except.ok st1 => if r1 = 63 then parseRunes rest st1 else parseRunes ((r1, w1) :: rest) st1
      | Except.error e => Except.error e
    else if r = 43 then
      match st.setQuant (Quant.plus (r1 != 63)) with
      | Except.ok st1 => if r1 = 63 then parseRunes rest st1 else parseRunes ((r1, w1) :: rest) st1
      | Except.error e => Except.error e
    else if r = 63 then
      match st.setQuant (Quant.quest (r1 != 63)) with
      | Except.ok st1 => if r1 = 63 then parseRunes rest st1 else parseRunes ((r1, w1) :: rest) st1
      | Except.error e => Except.error e
    else if r = 41 then Except.error CompileError.unexpectedParen
    else if r = 40 ∨ r = 91 ∨ r = 123 ∨ r = 94 ∨ r = 36 then
      Except.error CompileError.outsideModel
    else if r = 46 then parseRunes ((r1, w1) :: rest) (st.push Atom.anyNotNL)
    else parseRunes ((r1, w1) :: rest) (st.push (Atom.lit r))

/-- The alternatives of an expression, each a list of items. -/
def parseRegexp (expr : List Nat) : Except CompileError (List (List Piece)) :=
  parseRunes (rangeDecodeAux 0 expr) ⟨[], [], Last.nothing⟩

/-- Does the item accept the rune? -/
def Atom.test : Atom → Nat → Bool
  | Atom.lit c, r => r == c
  | Atom.anyNotNL, r => r != 10
  | Atom.digit neg, r => (48 ≤ r && r ≤ 57) != neg
  | Atom.space neg, r => (r == 9 || r == 10 || r == 12 || r == 13 || r == 32) != neg
  | Atom.word neg, r => (isalnum r || r == 95) != neg

/-- One step of the item over the text: the width of the rune it consumes. -/
def atomStep (a : Atom) (s : List Nat) : Option Nat :=
  match s with
  | [] => none
  | _ :: _ => if a.test (decodeRune s).1 then some (decodeRune s).2 else none

/-- Greedy repetition followed by the continuation `k`: longest run first. The bound is the
length of the text, every round consuming at least one byte. -/
def repeatGreedy (a : Atom) (k : List Nat → Option Nat) : Nat → List Nat → Option Nat
  | 0, s => k s
  | fuel + 1, s =>
    match atomStep a s with
    | some w =>
      match repeatGreedy a k fuel (s.drop w) with
      | some n => some (w + n)
      | none => k s
    | none => k s

/-- Lazy repetition followed by the continuation `k`: shortest run first. -/
def repeatLazy (a : Atom) (k : List Nat → Option Nat) : Nat → List Nat → Option Nat
  | 0, s => k s
  | fuel + 1, s =>
    match k s with
    | some n => some n
    | none =>
      match atomStep a s with
      | some w =>
        match repeatLazy a k fuel (s.drop w) with
        | some n => some (w + n)
        | none => none
      | none => none

/-- Match the items at the head of the text the way a backtracking search does: the number
of bytes of the first match found. -/
def matchPieces : List Piece → List Nat → Option Nat
  | [], _ => some 0
  | ⟨a, Quant.one⟩ :: ps, s =>
    match atomStep a s with
    | some w =>
      match matchPieces ps (s.drop w) with
      | some n => some (w + n)
      | none => none
    | none => none
  | ⟨a, Quant.star true⟩ :: ps, s => repeatGreedy a (matchPieces ps) s.length s
  | ⟨a, Quant.star false⟩ :: ps, s => repeatLazy a (matchPieces ps) s.length s
  | ⟨a, Quant.plus true⟩ :: ps, s =>
    match atomStep a s with
    | some w =>
      match repeatGreedy a (matchPieces ps) s.length (s.drop w) with
      | some n => some (w + n)
      | none => none
    | none => none
  | ⟨a, Quant.plus false⟩ :: ps, s =>
    match atomStep a s with
    | some w =>
      match repeatLazy a (matchPieces ps) s.length (s.drop w) with
      | some n => some (w + n)
      | none => none
    | none => none
  | ⟨a, Quant.quest true⟩ :: ps, s =>
    match atomStep a s with
    | some w =>
      match matchPieces ps (s.drop w) with
      | some n => some (w + n)
      | none => matchPieces ps s
    | none => matchPieces ps s
  | ⟨a, Quant.quest false⟩ :: ps, s =>
    match matchPieces ps s with
    | some n => some n
    | none =>
      match atomStep a s with
      | some w =>
        match matchPieces ps (s.drop w) with
        | some n => some (w + n)
        | none => none
      | none => none

/-- The first alternative that matches at the head of the text. -/
def matchAlts : List (List Piece) → List Nat → Option Nat
  | [], _ => none
  | ps :: rest, s =>
    match matchPieces ps s with
    | some n => some n
    | none => matchAlts rest s

/-- Try the offsets of the text from `pos` on, rune by rune; `s` is the text from `pos`. The
bound is one more than the length of `s`. -/
def searchFrom (alts : List (List Piece)) : Nat → List Nat → Nat → Option Match
  | 0, _, _ => none
  | fuel + 1, s, pos =>
    match matchAlts alts s with
    | some n => some ⟨pos, pos + n, []⟩
    | none =>
      match s with
      | [] => none
      | _ :: _ => searchFrom alts fuel (s.drop (decodeRune s).2) (pos + (decodeRune s).2)

/-- The compiled form of a parsed expression. -/
def regexpOf (alts : List (List Piece)) : Regexp :=
  ⟨fun src pos =>
    if pos ≤ src.length then searchFrom alts ((src.drop pos).length + 1) (src.drop pos) pos
    else none⟩

/-- The executable instance of `regexp.Compile`. -/
def goRegexp : RegexpPackage :=
  ⟨fun expr =>
    match parseRegexp expr with
    | Except.ok alts => Except.ok (regexpOf alts)
    | Except.error e => Except.error e⟩

/-- Search of the Go expression `\Bb` through the text: `i` is the offset of the head of the
rest, `prev` the byte before it (0 at the start of the text), `pos` the search position. -/
def searchNotBoundaryB : List Nat → Nat → Nat → Nat → Option Match
  | [], _, _, _ => none
  | c :: t, i, prev, pos =>
    if pos ≤ i ∧ c = 98 ∧ (isalnum prev || prev == 95) = true then some ⟨i, i + 1, []⟩
    else searchNotBoundaryB t (i + 1) c pos

/-- The compiled form of the Go expression `\Bb`, which the instance above does not cover:
a `b` with no word boundary before it, that is, one that follows an ASCII word character. -/
def notBoundaryB : Regexp := ⟨fun src pos => searchNotBoundaryB src 0 0 pos⟩

/-- The instance above, extended by the expression `\Bb`. -/
def goRegexpNotBoundaryB : RegexpPackage :=
  ⟨fun expr => if expr = [92, 66, 98] then Except.ok notBoundaryB else goRegexp.compile expr⟩

/-! ## Notions of the claims -/

/-- Go `utf8.ValidString`: no step of the decoding yields `(RuneError, 1)`. -/
def validString (s : List Nat) : Bool :=
  (rangeDecodeAux 0 s).all (fun d => !(d.1 == runeError && d.2 == 1))

/-- What a `%` followed by the byte `c` stands for in a replacement template: capture
`c - '0'` for a digit (nothing when the match has no such capture), else `c` itself. -/
def expandEscape (captures : List (List Nat)) (c : Nat) : List Nat :=
  if 48 ≤ c ∧ c ≤ 57 then captures.getD (c - 48) [] else [c]

/-- The expansion of a replacement template in the words of the amended claim C8, byte by
byte: `%` with the byte after it is replaced by what the pair stands for, any other byte
is copied, and a `%` that ends the template stays a `%`. -/
def expandSpec (captures : List (List Nat)) : List Nat → List Nat
  | [] => []
  | [c] => [c]
  | c :: d :: rest =>
    if c = 37 then expandEscape captures d ++ expandSpec captures rest
    else c :: expandSpec captures (d :: rest)

/-- The number of `%` bytes the pattern ends with. -/
def trailingPercents (p : List Nat) : Nat := (p.reverse.takeWhile (fun b => b == 37)).length

/-- The pattern ends with a dangling `%`: its last byte is a `%` that the `%` before it,
if any, does not escape, which is an odd number of `%` at the end. -/
def EndsWithDanglingPercent (p : List Nat) : Prop := trailingPercents p % 2 = 1

/-! # Theorems -/

/-! ## Plain search -/

theorem prefix_drop_iff (s p : List Nat) (m : Nat) (hm : m ≤ s.length) :
    p <+: s.drop m ↔ ∃ a b : List Nat, s = a ++ p ++ b ∧ a.length = m := by
  constructor
  · rintro ⟨t, ht⟩
    refine ⟨s.take m, t, ?_, by simp [hm]⟩
    rw [List.append_assoc, ht, List.take_append_drop]
  · rintro ⟨a, b, rfl, rfl⟩
    exact ⟨b, by simp⟩

theorem indexFrom_some (sub : List Nat) :
    ∀ (s : List Nat) (i k : Nat), indexFrom sub s i = some k →
      ∃ j, k = i + j ∧ j ≤ s.length ∧ sub <+: s.drop j ∧ ∀ j2, j2 < j → ¬ sub <+: s.drop j2 := by
  intro s
  induction s with
  | nil =>
    intro i k h
    simp only [indexFrom] at h
    split at h
    · rename_i hp
      refine ⟨0, by simpa using h.symm, by simp, ?_, by simp⟩
      simpa using List.isPrefixOf_iff_prefix.mp hp
    · simp at h
  | cons b t ih =>
    intro i k h
    simp only [indexFrom] at h
    split at h
    · rename_i hp
      refine ⟨0, by simpa using h.symm, by simp, ?_, by simp⟩
      simpa using List.isPrefixOf_iff_prefix.mp hp
    · rename_i hp
      obtain ⟨j, hk, hj, hpre, hmin⟩ := ih (i + 1) k h
      refine ⟨j + 1, by omega, by simp; omega, by simpa using hpre, ?_⟩
      intro j2 hj2
      cases j2 with
      | zero =>
        intro hc
        exact hp (List.isPrefixOf_iff_prefix.mpr (by simpa using hc))
      | succ n =>
        simpa using hmin n (by omega)

theorem indexFrom_none (sub : List Nat) :
    ∀ (s : List Nat) (i : Nat), indexFrom sub s i = none → ∀ j, ¬ sub <+: s.drop j := by
  intro s
  induction s with
  | nil =>
    intro i h j
    simp only [indexFrom] at h
    split at h
    · simp at h
    · rename_i hp
      intro hc
      exact hp (List.isPrefixOf_iff_prefix.mpr (by simpa using hc))
  | cons b t ih =>
    intro i h j
    simp only [indexFrom] at h
    split at h
    · simp at h
    · rename_i hp
      cases j with
      | zero =>
        intro hc
        exact hp (List.isPrefixOf_iff_prefix.mpr (by simpa using hc))
      | succ n => simpa using ih (i + 1) h n

theorem occursAt_iff_drop (s p : List Nat) (m : Nat) (hm : m ≤ s.length) :
    OccursAt s p ((m : Int) + 1) ↔ p <+: s.drop m := by
  rw [prefix_drop_iff s p m hm]
  constructor
  · rintro ⟨a, b, h, hk⟩
    exact ⟨a, b, h, by omega⟩
  · rintro ⟨a, b, h, hk⟩
    exact ⟨a, b, h, by omega⟩

theorem occursAt_bounds {s p : List Nat} {k : Int} (h : OccursAt s p k) :
    1 ≤ k ∧ k ≤ (s.length : Int) + 1 := by
  obtain ⟨a, b, rfl, hk⟩ := h
  simp only [List.length_append]
  omega

theorem findFrom_spec (s p : List Nat) (st : Int) (plain : Option Bool)
    (hp : containsAnyMagic p = false) (h1 : 1 ≤ st) (h2 : st ≤ (s.length : Int) + 1) :
    (findFrom s p st plain true = FindResult.nil ∧ ∀ k, st ≤ k → ¬ OccursAt s p k) ∨
    (∃ k, findFrom s p st plain true = FindResult.range k (k + p.length - 1) ∧ st ≤ k ∧
      OccursAt s p k ∧ ∀ j, st ≤ j → j < k → ¬ OccursAt s p j) := by
  obtain ⟨n, rfl⟩ : ∃ n : Nat, st = (n : Int) + 1 := ⟨(st - 1).toNat, by omega⟩
  have hn : n ≤ s.length := by omega
  have hcond : (true && ((match plain with | none => true | some b => b) || !containsAnyMagic p))
      = true := by simp [hp]
  simp only [findFrom, hcond, if_true]
  have hsub : ((n : Int) + 1 - 1).toNat = n := by omega
  rw [hsub]
  cases hidx : stringsIndex (s.drop n) p with
  | none =>
    left
    refine ⟨rfl, ?_⟩
    intro k hk hocc
    obtain ⟨hk1, hk2⟩ := occursAt_bounds hocc
    obtain ⟨m, rfl⟩ : ∃ m : Nat, k = (m : Int) + 1 := ⟨(k - 1).toNat, by omega⟩
    have hm : m ≤ s.length := by omega
    rw [occursAt_iff_drop s p m hm] at hocc
    have := indexFrom_none p (s.drop n) 0 hidx (m - n)
    rw [List.drop_drop] at this
    have e : n + (m - n) = m := by omega
    rw [e] at this
    exact this hocc
  | some start =>
    right
    obtain ⟨j, hj0, hjlen, hpre, hmin⟩ := indexFrom_some p (s.drop n) 0 start hidx
    have hjs : start = j := by omega
    subst hjs
    rw [List.drop_drop] at hpre
    simp only [List.length_drop] at hjlen
    refine ⟨(start : Int) + ((n : Int) + 1), rfl, by omega, ?_, ?_⟩
    · have := (occursAt_iff_drop s p (n + start) (by omega)).mpr hpre
      have e : ((n + start : Nat) : Int) + 1 = (start : Int) + ((n : Int) + 1) := by
        push_cast; ring
      rwa [e] at this
    · intro i hi1 hi2 hocc
      obtain ⟨m, rfl⟩ : ∃ m : Nat, i = (m : Int) + 1 := ⟨(i - 1).toNat, by omega⟩
      have hm : m ≤ s.length := by omega
      rw [occursAt_iff_drop s p m hm] at hocc
      have := hmin (m - n) (by omega)
      rw [List.drop_drop] at this
      have e : n + (m - n) = m := by omega
      rw [e] at this
      exact this hocc

theorem clamp_eq_startOf (s : List Nat) (i : Int) (hlo : -2 ^ 63 ≤ i) (hhi : i < 2 ^ 63)
    (hs : (s.length : Int) < 2 ^ 63) :
    (if relativePosition i s.length < 1 then 1 else relativePosition i s.length) = startOf s i := by
  unfold relativePosition startOf wrapInt
  norm_num at *
  split_ifs <;> omega

/-- C1: for a pattern without magic characters `find` is the plain substring search from
the start offset derived from `init`: nil beyond `len(s)+1`, otherwise the offsets of the
leftmost occurrence at or after the start offset, or nil when there is none; the result does
not depend on `plain`, and `find("hello world", "wor") = (7, 9)`. -/
theorem find_literal_pattern (s p : List Nat) (init : Option Int) (plain : Option Bool)
    (hp : containsAnyMagic p = false)
    (hlo : -2 ^ 63 ≤ init.getD 1) (hhi : init.getD 1 < 2 ^ 63)
    (hs : (s.length : Int) < 2 ^ 63) :
    (startOf s (init.getD 1) > (s.length : Int) + 1 → find s p init plain = FindResult.nil) ∧
    (startOf s (init.getD 1) ≤ (s.length : Int) + 1 →
      (find s p init plain = FindResult.nil ∧
        ∀ k, startOf s (init.getD 1) ≤ k → ¬ OccursAt s p k) ∨
      (∃ k, find s p init plain = FindResult.range k (k + p.length - 1) ∧
        startOf s (init.getD 1) ≤ k ∧ OccursAt s p k ∧
        ∀ j, startOf s (init.getD 1) ≤ j → j < k → ¬ OccursAt s p j)) ∧
    find s p init (some false) = find s p init (some true) ∧
    find (lit "hello world") (lit "wor") none none = FindResult.range 7 9 := by
  have hclamp := clamp_eq_startOf s (init.getD 1) hlo hhi hs
  have hpos : 1 ≤ startOf s (init.getD 1) := by
    rw [← hclamp]; split_ifs <;> omega
  have hfind : ∀ pl : Option Bool, find s p init pl =
      if startOf s (init.getD 1) > (s.length : Int) + 1 then FindResult.nil
      else findFrom s p (startOf s (init.getD 1)) pl true := by
    intro pl
    rw [← hclamp]
    unfold find findHelper
    simp only []
    split_ifs <;> first | rfl | omega
  refine ⟨?_, ?_, ?_, by decide⟩
  · intro h
    rw [hfind, if_pos h]
  · intro h
    rw [hfind, if_neg (by omega)]
    exact findFrom_spec s p _ plain hp hpos h
  · rw [hfind, hfind]
    split_ifs
    · rfl
    · simp [findFrom, hp]

/-- Instance of the plain-search property at `find("hello world", "wor")`, with `init` and
`plain` omitted. -/
theorem find_literal_pattern_witness :
    (startOf (lit "hello world") 1 > 12 → find (lit "hello world") (lit "wor") none none
        = FindResult.nil) ∧
    (startOf (lit "hello world") 1 ≤ 12 →
      (find (lit "hello world") (lit "wor") none none = FindResult.nil ∧
        ∀ k, startOf (lit "hello world") 1 ≤ k → ¬ OccursAt (lit "hello world") (lit "wor") k) ∨
      (∃ k, find (lit "hello world") (lit "wor") none none = FindResult.range k (k + 3 - 1) ∧
        startOf (lit "hello world") 1 ≤ k ∧ OccursAt (lit "hello world") (lit "wor") k ∧
        ∀ j, startOf (lit "hello world") 1 ≤ j → j < k →
          ¬ OccursAt (lit "hello world") (lit "wor") j)) ∧
    find (lit "hello world") (lit "wor") none (some false)
      = find (lit "hello world") (lit "wor") none (some true) ∧
    find (lit "hello world") (lit "wor") none none = FindResult.range 7 9 :=
  find_literal_pattern (lit "hello world") (lit "wor") none none (by decide) (by decide)
    (by decide) (by decide)

theorem find_magic_prefers_no_matcher (s p : List Nat) (init : Option Int)
    (hp : containsAnyMagic p = true) :
    find s p init (some false) = FindResult.nil ∨
    find s p init (some false) = FindResult.assertFailed := by
  unfold find findHelper
  simp only []
  split_ifs
  · right; simp [findFrom, hp]
  · left; rfl
  · right; simp [findFrom, hp]

/-- C2: on a pattern with magic characters `find` does no pattern matching.
`find("aaab", "a*")` with `plain` omitted is a plain search for the two bytes `a*` and
returns nil; with `plain = false` it reaches `l.assert(false)`. Neither returns `(1, 3)`. -/
theorem find_magic_pattern_unimplemented :
    containsAnyMagic (lit "a*") = true ∧
    find (lit "aaab") (lit "a*") none none = FindResult.nil ∧
    find (lit "aaab") (lit "a*") none (some false) = FindResult.assertFailed :=
  ⟨by decide, by decide, by decide⟩

/-! ## Evaluations of `strMatch`, `gmatch` and `gsub` -/

/-- C3: `match` does not scan from the start offset of `find` when `init` is negative.
`find("hello", "l", -1)` starts at the last byte and returns nil, while
`match("hello", "l", -1)` clamps the offset to 0 and returns `"l"`. -/
theorem strMatch_negative_init_differs_from_find :
    containsAnyMagic (lit "l") = false ∧
    find (lit "hello") (lit "l") (some (-1)) none = FindResult.nil ∧
    find (lit "hello") (lit "l") (some (-1)) (some false) = FindResult.nil ∧
    strMatch goRegexp (lit "hello") (lit "l") (some (-1)) = MatchResult.values [lit "l"] := by
  refine ⟨by decide, by decide, by decide, by decide⟩

/-- C4: the `gmatch` iterator moves its cursor by the length of the match, not past its end.
Over `s = "xxab"` and `p = "ab"` it yields `"ab"` twice before nil. -/
theorem gmatch_yields_occurrence_twice :
    ∃ it, gmatch goRegexp (lit "xxab") (lit "ab") = Except.ok it ∧
      gmatchCalls 3 it =
        [MatchResult.values [lit "ab"], MatchResult.values [lit "ab"], MatchResult.nil] ∧
      (gmatchNext it).2.s = lit "ab" :=
  ⟨⟨regexpOf [[⟨Atom.lit 97, Quant.one⟩, ⟨Atom.lit 98, Quant.one⟩]], lit "xxab"⟩, rfl,
    by decide, by decide⟩

/-- C5: on a pattern that matches the empty string the `gmatch` iterator is never exhausted.
Over `s = "b"` and `p = "a*"` every call yields the empty string and leaves the cursor
where it was. -/
theorem gmatch_empty_match_never_exhausted :
    ∃ it, gmatch goRegexp (lit "b") (lit "a*") = Except.ok it ∧
      (gmatchNext it).2.s = it.s ∧
      ∀ n, gmatchCalls n it = List.replicate n (MatchResult.values [[]]) := by
  refine ⟨⟨regexpOf [[⟨Atom.lit 97, Quant.star true⟩]], lit "b"⟩, rfl, by decide, ?_⟩
  intro n
  induction n with
  | zero => rfl
  | succ k ih =>
    rw [gmatchCalls, List.replicate_succ]
    exact congrArg₂ List.cons (by decide) ih

/-- C6: a pattern without Lua magic characters is still handed to the regular-expression
compiler unquoted. `"a|b"` does not occur in `"b"`, yet `gsub("b", "a|b", "x")` returns
`("x", 1)`; the example of the claim, `gsub("hello world", "o", "0")`, does give
`("hell0 w0rld", 2)`. -/
theorem gsub_literal_bar_is_alternation :
    containsAnyMagic (lit "a|b") = false ∧
    stringsIndex (lit "b") (lit "a|b") = none ∧
    gsub goRegexp (lit "b") (lit "a|b") (Repl.str (lit "x")) none = Except.ok (lit "x", 1) ∧
    gsub goRegexp (lit "hello world") (lit "o") (Repl.str (lit "0")) none
      = Except.ok (lit "hell0 w0rld", 2) :=
  ⟨by decide, by decide, rfl, rfl⟩

/-- C7, as stated: a malformed pattern makes `gsub(s, p, r, 0)` raise an error. The pattern
`")"` closes a capture that was never opened, and `gsub("x", ")", "y", 0)` is
`invalid pattern: unexpected )`. -/
theorem gsub_zero_limit_invalid_pattern :
    gsub goRegexp (lit "x") (lit ")") (Repl.str (lit "y")) (some 0)
      = Except.error (LuaError.invalidPattern CompileError.unexpectedParen) :=
  rfl

/-- C8, as stated: a `%` followed by another character and a `%` ending the template are not
errors, and a byte that is not UTF-8 is not copied as is. `"%a"` expands to `"a"`, `"x%"` to
`"x%"`, the byte `0xFF` to the three bytes of U+FFFD, and `gsub("b", "b", "%a")` returns
`("a", 1)`. -/
theorem expandLuaReplacement_no_template_error :
    expandLuaReplacement (lit "%a") [lit "m"] = some (lit "a") ∧
    expandLuaReplacement (lit "x%") [lit "m"] = some (lit "x%") ∧
    expandLuaReplacement [255] [lit "m"] = some [239, 191, 189] ∧
    gsub goRegexp (lit "b") (lit "b") (Repl.str (lit "%a")) none = Except.ok (lit "a", 1) :=
  ⟨by decide, by decide, by decide, rfl⟩

/-- C9: `%` followed by a non-alphanumeric byte is copied into the regular expression
unquoted. `"%."` becomes `"."`, which matches any byte but newline:
`match("a", "%.")` returns `"a"`. -/
theorem strMatch_escaped_dot_matches_any :
    luaPatternToGoRegex (lit "%.") = (lit ".", none) ∧
    strMatch goRegexp (lit "a") (lit "%.") none = MatchResult.values [lit "a"] ∧
    strMatch goRegexp (lit ".") (lit "%.") none = MatchResult.values [lit "."] :=
  ⟨by decide, by decide, by decide⟩

/-- C10, as stated: a pattern ending in a dangling `%` is translated, not rejected.
`luaPatternToGoRegex("a%")` returns `"a%"` with a nil error, and `match("a%", "a%")`
returns `"a%"`. -/
theorem luaPatternToGoRegex_dangling_percent_accepted :
    luaPatternToGoRegex (lit "a%") = (lit "a%", none) ∧
    strMatch goRegexp (lit "a%") (lit "a%") none = MatchResult.values [lit "a%"] :=
  ⟨by decide, by decide⟩

/-! ## Widths of decoded runes -/

theorem decodeRune_width_le (s : List Nat) : (decodeRune s).2 ≤ s.length := by
  cases s with
  | nil => simp [decodeRune]
  | cons b0 t =>
    simp only [decodeRune]
    split_ifs
    · simp
    · split
      · split_ifs <;> simp
      · simp
    · split
      · split_ifs <;> simp
      · simp
    · split
      · split_ifs <;> simp
      · simp
    · simp

theorem decodeRune_width_pos (b : Nat) (t : List Nat) : 1 ≤ (decodeRune (b :: t)).2 := by
  simp only [decodeRune]
  split_ifs
  · simp
  · split
    · split_ifs <;> simp
    · simp
  · split
    · split_ifs <;> simp
    · simp
  · split
    · split_ifs <;> simp
    · simp
  · simp

/-! ## The executable instance returns matches inside the text -/

theorem atomStep_le (a : Atom) (s : List Nat) (w : Nat) (h : atomStep a s = some w) :
    w ≤ s.length := by
  cases s with
  | nil => simp [atomStep] at h
  | cons b t =>
    simp only [atomStep] at h
    split_ifs at h
    cases h
    exact decodeRune_width_le (b :: t)

theorem repeatGreedy_le (a : Atom) (k : List Nat → Option Nat)
    (hk : ∀ s n, k s = some n → n ≤ s.length) :
    ∀ (fuel : Nat) (s : List Nat) (n : Nat), repeatGreedy a k fuel s = some n → n ≤ s.length := by
  intro fuel
  induction fuel with
  | zero => intro s n h; exact hk s n h
  | succ f ih =>
    intro s n h
    simp only [repeatGreedy] at h
    split at h
    · rename_i w hw
      have hwl := atomStep_le a s w hw
      split at h
      · rename_i m hm
        cases h
        have := ih _ _ hm
        rw [List.length_drop] at this
        omega
      · exact hk s n h
    · exact hk s n h

theorem repeatLazy_le (a : Atom) (k : List Nat → Option Nat)
    (hk : ∀ s n, k s = some n → n ≤ s.length) :
    ∀ (fuel : Nat) (s : List Nat) (n : Nat), repeatLazy a k fuel s = some n → n ≤ s.length := by
  intro fuel
  induction fuel with
  | zero => intro s n h; exact hk s n h
  | succ f ih =>
    intro s n h
    simp only [repeatLazy] at h
    split at h
    · rename_i m hm
      cases h
      exact hk s _ hm
    · split at h
      · rename_i w hw
        have hwl := atomStep_le a s w hw
        split at h
        · rename_i m hm
          cases h
          have := ih _ _ hm
          rw [List.length_drop] at this
          omega
        · cases h
      · cases h

theorem step_then_le {s : List Nat} {w m : Nat} (hw : w ≤ s.length)
    (hm : m ≤ (s.drop w).length) : w + m ≤ s.length := by
  rw [List.length_drop] at hm
  omega

theorem matchPieces_le :
    ∀ (ps : List Piece) (s : List Nat) (n : Nat), matchPieces ps s = some n → n ≤ s.length := by
  intro ps
  induction ps with
  | nil => intro s n h; simp [matchPieces] at h; omega
  | cons pc ps ih =>
    intro s n h
    obtain ⟨a, q⟩ := pc
    cases q with
    | one =>
      simp only [matchPieces] at h
      split at h
      · rename_i w hw
        split at h
        · rename_i m hm
          cases h
          exact step_then_le (atomStep_le a s w hw) (ih _ _ hm)
        · cases h
      · cases h
    | star g =>
      cases g with
      | true => exact repeatGreedy_le a _ ih _ s n (by simpa [matchPieces] using h)
      | false => exact repeatLazy_le a _ ih _ s n (by simpa [matchPieces] using h)
    | plus g =>
      cases g with
      | true =>
        simp only [matchPieces] at h
        split at h
        · rename_i w hw
          split at h
          · rename_i m hm
            cases h
            exact step_then_le (atomStep_le a s w hw) (repeatGreedy_le a _ ih _ _ _ hm)
          · cases h
        · cases h
      | false =>
        simp only [matchPieces] at h
        split at h
        · rename_i w hw
          split at h
          · rename_i m hm
            cases h
            exact step_then_le (atomStep_le a s w hw) (repeatLazy_le a _ ih _ _ _ hm)
          · cases h
        · cases h
    | quest g =>
      cases g with
      | true =>
        simp only [matchPieces] at h
        split at h
        · rename_i w hw
          split at h
          · rename_i m hm
            cases h
            exact step_then_le (atomStep_le a s w hw) (ih _ _ hm)
          · exact ih _ _ h
        · exact ih _ _ h
      | false =>
        simp only [matchPieces] at h
        split at h
        · rename_i m hm
          cases h
          exact ih _ _ hm
        · split at h
          · rename_i w hw
            split at h
            · rename_i m hm
              cases h
              exact step_then_le (atomStep_le a s w hw) (ih _ _ hm)
            · cases h
          · cases h

theorem matchAlts_le :
    ∀ (alts : List (List Piece)) (s : List Nat) (n : Nat),
      matchAlts alts s = some n → n ≤ s.length := by
  intro alts
  induction alts with
  | nil => intro s n h; simp [matchAlts] at h
  | cons ps rest ih =>
    intro s n h
    simp only [matchAlts] at h
    split at h
    · rename_i m hm
      cases h
      exact matchPieces_le ps s _ hm
    · exact ih s n h

theorem searchFrom_range (alts : List (List Piece)) :
    ∀ (fuel : Nat) (s : List Nat) (pos : Nat) (m : Match),
      searchFrom alts fuel s pos = some m →
        pos ≤ m.first ∧ m.first ≤ m.last ∧ m.last ≤ pos + s.length := by
  intro fuel
  induction fuel with
  | zero => intro s pos m h; simp [searchFrom] at h
  | succ f ih =>
    intro s pos m h
    simp only [searchFrom] at h
    split at h
    · rename_i n hn
      cases h
      have := matchAlts_le alts s n hn
      simp
      omega
    · have h2 := decodeRune_width_le s
      split at h
      · cases h
      · have h1 := ih _ _ _ h
        rw [List.length_drop] at h1
        omega

theorem regexpOf_inRange (alts : List (List Piece)) : (regexpOf alts).InRange := by
  intro src pos m h
  simp only [regexpOf] at h
  split_ifs at h with hp
  have := searchFrom_range alts _ _ _ _ h
  rw [List.length_drop] at this
  omega

/-! ## The iteration bounds of the model are never used up -/

theorem atomStep_pos (a : Atom) (s : List Nat) (w : Nat) (h : atomStep a s = some w) :
    1 ≤ w := by
  cases s with
  | nil => simp [atomStep] at h
  | cons b t =>
    simp only [atomStep] at h
    split_ifs at h
    cases h
    exact decodeRune_width_pos b t

theorem repeatGreedy_fuel (a : Atom) (k : List Nat → Option Nat) :
    ∀ (f1 f2 : Nat) (s : List Nat), s.length ≤ f1 → s.length ≤ f2 →
      repeatGreedy a k f1 s = repeatGreedy a k f2 s := by
  intro f1
  induction f1 with
  | zero =>
    intro f2 s h1 _
    have : s = [] := List.length_eq_zero.mp (by omega)
    subst this
    cases f2 <;> simp [repeatGreedy, atomStep]
  | succ f1 ih =>
    intro f2 s h1 h2
    cases f2 with
    | zero =>
      have : s = [] := List.length_eq_zero.mp (by omega)
      subst this
      simp [repeatGreedy, atomStep]
    | succ f2 =>
      simp only [repeatGreedy]
      cases hw : atomStep a s with
      | none => rfl
      | some w =>
        have hp := atomStep_pos a s w hw
        have hl := atomStep_le a s w hw
        have hd : (s.drop w).length ≤ f1 ∧ (s.drop w).length ≤ f2 := by
          rw [List.length_drop]; omega
        simp only [ih f2 (s.drop w) hd.1 hd.2]

theorem repeatLazy_fuel (a : Atom) (k : List Nat → Option Nat) :
    ∀ (f1 f2 : Nat) (s : List Nat), s.length ≤ f1 → s.length ≤ f2 →
      repeatLazy a k f1 s = repeatLazy a k f2 s := by
  intro f1
  induction f1 with
  | zero =>
    intro f2 s h1 _
    have : s = [] := List.length_eq_zero.mp (by omega)
    subst this
    cases f2
    · rfl
    · simp only [repeatLazy, atomStep]
      cases k [] <;> rfl
  | succ f1 ih =>
    intro f2 s h1 h2
    cases f2 with
    | zero =>
      have : s = [] := List.length_eq_zero.mp (by omega)
      subst this
      simp only [repeatLazy, atomStep]
      cases k [] <;> rfl
    | succ f2 =>
      simp only [repeatLazy]
      cases hw : atomStep a s with
      | none => rfl
      | some w =>
        have hp := atomStep_pos a s w hw
        have hl := atomStep_le a s w hw
        have hd : (s.drop w).length ≤ f1 ∧ (s.drop w).length ≤ f2 := by
          rw [List.length_drop]; omega
        simp only [ih f2 (s.drop w) hd.1 hd.2]

theorem searchFrom_fuel (alts : List (List Piece)) :
    ∀ (f1 f2 : Nat) (s : List Nat) (pos : Nat), s.length < f1 → s.length < f2 →
      searchFrom alts f1 s pos = searchFrom alts f2 s pos := by
  intro f1
  induction f1 with
  | zero => intro f2 s pos h1; omega
  | succ f1 ih =>
    intro f2 s pos h1 h2
    cases f2 with
    | zero => omega
    | succ f2 =>
      simp only [searchFrom]
      cases matchAlts alts s with
      | some n => rfl
      | none =>
        cases s with
        | nil => rfl
        | cons b t =>
          have hp := decodeRune_width_pos b t
          have hd : ((b :: t).drop (decodeRune (b :: t)).2).length < f1 ∧
              ((b :: t).drop (decodeRune (b :: t)).2).length < f2 := by
            rw [List.length_drop]
            simp only [List.length_cons] at h1 h2 ⊢
            omega
          simp only [ih f2 _ _ hd.1 hd.2]

theorem replaceAllLoop_fuel {σ : Type} (re : Regexp) (hre : re.InRange) (src : List Nat)
    (repl : σ → List Nat → Option (List Nat × σ)) :
    ∀ (fuel lastMatchEnd searchPos : Nat) (buf : List Nat) (st : σ),
      searchPos ≤ src.length + 1 → src.length + 2 ≤ fuel + searchPos →
      replaceAllLoop re src repl fuel lastMatchEnd searchPos buf st ≠ Run.outOfFuel := by
  intro fuel
  induction fuel with
  | zero => intro l p buf st h1 h2; omega
  | succ f ih =>
    intro l p buf st h1 h2
    simp only [replaceAllLoop]
    split_ifs with hp
    · cases hm : re.doExecute src p with
      | none => simp
      | some m =>
        obtain ⟨r1, r2, r3⟩ := hre src p m hm
        have hw := decodeRune_width_le (src.drop p)
        rw [List.length_drop] at hw
        dsimp only
        split
        · simp
        · apply ih
          · split_ifs <;> omega
          · split_ifs <;> omega
    · simp

/-- With a `regexp` implementation whose matches lie inside the text, `gsub` never ends on
the iteration bound of the model. -/
theorem gsub_fuel (E : RegexpPackage) (s p : List Nat) (r : Repl) (n : Option Int)
    (hE : ∀ expr re, E.compile expr = Except.ok re → re.InRange) :
    gsub E s p r n ≠ Except.error LuaError.outOfFuel := by
  simp only [gsub, luaPatternToGoRegex]
  split
  · simp
  · split
    · simp
    · rename_i re hc
      split
      · simp
      · simp
      · rename_i hrun
        exact absurd hrun (replaceAllLoop_fuel re (hE _ re hc) s _ _ _ _ _ _
          (by omega) (by omega))

theorem strMatch_negative_init (E : RegexpPackage) (s p : List Nat) (init : Int)
    (hlo : -2 ^ 63 < init) (hneg : init < 1) :
    strMatch E s p (some init) = strMatchFrom E s p 0 := by
  unfold strMatch wrapInt
  simp only [Option.getD_some]
  norm_num at *
  split_ifs <;> first | rfl | omega

/-! ## `gsub` with a limit of zero -/

theorem take_append_slice (s : List Nat) (a b : Nat) (h : a ≤ b) :
    s.take a ++ slice s a b = s.take b := by
  unfold slice
  have : s.take a = (s.take b).take a := by
    rw [List.take_take, Nat.min_eq_left h]
  rw [this, List.take_append_drop]

theorem replaceAllLoop_keep {σ : Type} (re : Regexp) (hre : re.InRange) (src : List Nat)
    (repl : σ → List Nat → Option (List Nat × σ)) (st : σ)
    (hrepl : ∀ m, repl st m = some (m, st)) :
    ∀ (fuel lastMatchEnd searchPos : Nat), lastMatchEnd ≤ searchPos →
      searchPos ≤ src.length + 1 → src.length + 2 ≤ fuel + searchPos →
      replaceAllLoop re src repl fuel lastMatchEnd searchPos (src.take lastMatchEnd) st
        = Run.done (src, st) := by
  intro fuel
  induction fuel with
  | zero => intro l p h1 h2 h3; omega
  | succ f ih =>
    intro l p h1 h2 h3
    simp only [replaceAllLoop]
    split_ifs with hp
    · cases hm : re.doExecute src p with
      | none => simp [List.take_append_drop]
      | some m =>
        obtain ⟨r1, r2, r3⟩ := hre src p m hm
        have hw := decodeRune_width_le (src.drop p)
        rw [List.length_drop] at hw
        have hbuf1 : src.take l ++ slice src l m.first = src.take m.first :=
          take_append_slice src l m.first (by omega)
        dsimp only
        split
        · rename_i heq
          split_ifs at heq with hc
          rw [hrepl] at heq
          simp at heq
        · rename_i buf2 st2 heq
          have hb : buf2 = src.take m.last ∧ st2 = st := by
            split_ifs at heq with hc
            · rw [hrepl] at heq
              simp only [Option.some.injEq, Prod.mk.injEq] at heq
              obtain ⟨e1, e2⟩ := heq
              refine ⟨?_, e2.symm⟩
              rw [← e1, hbuf1, take_append_slice src _ _ r2]
            · simp only [Option.some.injEq, Prod.mk.injEq] at heq
              obtain ⟨e1, e2⟩ := heq
              refine ⟨?_, e2.symm⟩
              have : m.first = m.last := by omega
              rw [← e1, hbuf1, this]
          obtain ⟨rfl, rfl⟩ := hb
          apply ih
          · split_ifs <;> omega
          · split_ifs <;> omega
          · split_ifs <;> omega
    · simp [List.take_append_drop]

theorem gsubCallback_zero (re : Regexp) (replacement : List (List Nat) → Option (List Nat))
    (m : List Nat) : gsubCallback re replacement 0 0 m = some (m, 0) := by
  simp [gsubCallback]

theorem gsub_zero_limit_of_compiled (E : RegexpPackage) (s p : List Nat) (r : Repl) (re : Regexp)
    (hr : (replacementOf r).isSome = true)
    (hc : E.compile (luaPatternToGoRegex p).1 = Except.ok re) (hre : re.InRange) :
    gsub E s p r (some 0) = Except.ok (s, 0) := by
  obtain ⟨replacement, hrep⟩ := Option.isSome_iff_exists.mp hr
  have hloop := replaceAllLoop_keep re hre s (gsubCallback re replacement 0) 0
    (gsubCallback_zero re replacement) (s.length + 2) 0 0 (by omega) (by omega) (by omega)
  simp only [List.take_zero] at hloop
  simp only [gsub, hrep, luaPatternToGoRegex] at hc ⊢
  simp only [hc, replaceAllStringFunc, hloop]

theorem gsub_compile_error (E : RegexpPackage) (s p : List Nat) (r : Repl) (n : Option Int)
    (e : CompileError) (hr : (replacementOf r).isSome = true)
    (hc : E.compile (luaPatternToGoRegex p).1 = Except.error e) :
    gsub E s p r n = Except.error (LuaError.invalidPattern e) := by
  obtain ⟨replacement, hrep⟩ := Option.isSome_iff_exists.mp hr
  simp only [gsub, hrep, luaPatternToGoRegex] at hc ⊢
  simp only [hc]

theorem goRegexp_inRange (expr : List Nat) (re : Regexp)
    (h : goRegexp.compile expr = Except.ok re) : re.InRange := by
  simp only [goRegexp] at h
  split at h
  · cases h
    exact regexpOf_inRange _
  · cases h

/-- C7, amended: with a replacement that is a string, a function or a table and a pattern
whose translation `regexp.Compile` accepts, `gsub(s, p, r, 0)` returns `(s, 0)`. Of compiled
expressions it is only assumed that they report matches lying inside the text. -/
theorem gsub_zero_limit (E : RegexpPackage) (s p : List Nat) (r : Repl) (re : Regexp)
    (hr : (replacementOf r).isSome = true)
    (hE : ∀ expr re, E.compile expr = Except.ok re → re.InRange)
    (hc : E.compile (luaPatternToGoRegex p).1 = Except.ok re) :
    gsub E s p r (some 0) = Except.ok (s, 0) :=
  gsub_zero_limit_of_compiled E s p r re hr hc (hE _ re hc)

/-- Instance of the zero-limit property at `gsub("hello world", "o", "0", 0)` with the
executable `regexp` instance, whose matches lie inside the text. -/
theorem gsub_zero_limit_witness :
    (replacementOf (Repl.str (lit "0"))).isSome = true ∧
    goRegexp.compile (luaPatternToGoRegex (lit "o")).1
      = Except.ok (regexpOf [[⟨Atom.lit 111, Quant.one⟩]]) ∧
    gsub goRegexp (lit "hello world") (lit "o") (Repl.str (lit "0")) (some 0)
      = Except.ok (lit "hello world", 0) :=
  ⟨rfl, rfl, gsub_zero_limit goRegexp (lit "hello world") (lit "o") (Repl.str (lit "0"))
    (regexpOf [[⟨Atom.lit 111, Quant.one⟩]]) rfl goRegexp_inRange rfl⟩

/-! ## `range` over a string with an ASCII byte appended, and the dangling `%` -/

theorem rangeDecodeAux_skip : ∀ (t : List Nat) (k : Nat),
    rangeDecodeAux k t = rangeDecodeAux 0 (t.drop k) := by
  intro t
  induction t with
  | nil => intro k; cases k <;> simp [rangeDecodeAux]
  | cons c t ih =>
    intro k
    cases k with
    | zero => simp
    | succ k => simpa [rangeDecodeAux] using ih k

theorem rangeDecodeAux_cons (b : Nat) (t : List Nat) :
    rangeDecodeAux 0 (b :: t)
      = decodeRune (b :: t) :: rangeDecodeAux 0 ((b :: t).drop (decodeRune (b :: t)).2) := by
  have hw := decodeRune_width_pos b t
  obtain ⟨w, hw2⟩ : ∃ w, (decodeRune (b :: t)).2 = w + 1 := ⟨(decodeRune (b :: t)).2 - 1, by omega⟩
  rw [rangeDecodeAux, rangeDecodeAux_skip t, hw2]
  simp

theorem decodeRune_append_ascii (c : Nat) (t : List Nat) (b : Nat) (hb : b < 128) :
    decodeRune (c :: (t ++ [b])) = decodeRune (c :: t) := by
  have hnb : isCont b = false := by simp [isCont]; omega
  rcases t with _ | ⟨b1, _ | ⟨b2, _ | ⟨b3, t⟩⟩⟩ <;> simp [decodeRune, hnb]

theorem rangeDecodeAux_append_ascii (b : Nat) (hb : b < 128) :
    ∀ (n : Nat) (q : List Nat), q.length ≤ n →
      rangeDecodeAux 0 (q ++ [b]) = rangeDecodeAux 0 q ++ [(b, 1)] := by
  intro n
  induction n with
  | zero =>
    intro q hq
    have : q = [] := List.length_eq_zero.mp (by omega)
    subst this
    simp [rangeDecodeAux, decodeRune, hb]
  | succ n ih =>
    intro q hq
    cases q with
    | nil => simp [rangeDecodeAux, decodeRune, hb]
    | cons c t =>
      have hw1 := decodeRune_width_pos c t
      have hw2 := decodeRune_width_le (c :: t)
      rw [List.cons_append, rangeDecodeAux_cons, rangeDecodeAux_cons c t,
        decodeRune_append_ascii c t b hb, ← List.cons_append,
        List.drop_append_of_le_length hw2, ih _ (by simp at hq ⊢; omega)]
      simp

theorem rangeRunes_append_ascii (q : List Nat) (b : Nat) (hb : b < 128) :
    rangeRunes (q ++ [b]) = rangeRunes q ++ [b] := by
  simp [rangeRunes, rangeDecodeAux_append_ascii b hb q.length q le_rfl]

theorem decodeRune_eq_percent (c : Nat) (t : List Nat) (h : (decodeRune (c :: t)).1 = 37) :
    c = 37 := by
  simp only [decodeRune] at h
  split_ifs at h with h1 h2 h3 h4
  · exact h
  · split at h
    · split_ifs at h
      · simp at h; omega
      · simp [runeError] at h
    · simp [runeError] at h
  · split at h
    · split_ifs at h with h5
      · simp [acceptLo, acceptHi] at h h5; split_ifs at h5 <;> omega
      · simp [runeError] at h
    · simp [runeError] at h
  · split at h
    · split_ifs at h with h5
      · simp [acceptLo, acceptHi] at h h5; split_ifs at h5 <;> omega
      · simp [runeError] at h
    · simp [runeError] at h
  · simp [runeError] at h

theorem rangeRunes_cons (c : Nat) (t : List Nat) :
    rangeRunes (c :: t)
      = (decodeRune (c :: t)).1 :: rangeRunes ((c :: t).drop (decodeRune (c :: t)).2) := by
  simp [rangeRunes, rangeDecodeAux_cons c t]

theorem getLast_rangeRunes : ∀ (n : Nat) (p : List Nat), p.length ≤ n →
    (rangeRunes p).getLast? = some 37 → p.getLast? = some 37 := by
  intro n
  induction n with
  | zero =>
    intro p hp h
    have : p = [] := List.length_eq_zero.mp (by omega)
    subst this
    simp [rangeRunes, rangeDecodeAux] at h
  | succ n ih =>
    intro p hp h
    cases p with
    | nil => simp [rangeRunes, rangeDecodeAux] at h
    | cons c t =>
      have hw1 := decodeRune_width_pos c t
      rw [rangeRunes_cons] at h
      cases hrest : (c :: t).drop (decodeRune (c :: t)).2 with
      | nil =>
        rw [hrest] at h
        simp only [rangeRunes, rangeDecodeAux, List.map_nil, List.getLast?_singleton,
          Option.some.injEq] at h
        have hc := decodeRune_eq_percent c t h
        subst hc
        have hd : decodeRune (37 :: t) = (37, 1) := by simp [decodeRune]
        rw [hd] at hrest
        simp only [List.drop_succ_cons, List.drop_zero] at hrest
        subst hrest
        rfl
      | cons d u =>
        rw [hrest, rangeRunes_cons d u, List.getLast?_cons_cons, ← rangeRunes_cons d u] at h
        have hlen : (d :: u).length ≤ n := by
          rw [← hrest, List.length_drop]
          simp only [List.length_cons] at hp ⊢
          omega
        have h2 := ih (d :: u) hlen h
        rw [← hrest, List.getLast?_drop] at h2
        split_ifs at h2 with hle
        exact h2

theorem translateStep_escaped (st : Translate) (c : Nat) :
    (translateStep st c).escaped = (!st.escaped && decide (c = 37)) := by
  unfold translateStep
  split_ifs <;> simp_all

theorem escaped_iff_odd (p : List Nat) :
    ((rangeRunes p).foldl translateStep ⟨[], false⟩).escaped = true
      ↔ trailingPercents p % 2 = 1 := by
  induction p using List.reverseRecOn with
  | nil => simp [rangeRunes, rangeDecodeAux, trailingPercents]
  | append_singleton q b ih =>
    by_cases hb : b = 37
    · subst hb
      have ht : trailingPercents (q ++ [37]) = trailingPercents q + 1 := by
        simp [trailingPercents, List.takeWhile_cons]
      rw [rangeRunes_append_ascii q 37 (by omega), List.foldl_append, ht]
      simp only [List.foldl_cons, List.foldl_nil, translateStep_escaped]
      cases he : ((rangeRunes q).foldl translateStep ⟨[], false⟩).escaped
      · rw [he] at ih
        simp at ih ⊢
        omega
      · rw [he] at ih
        simp at ih ⊢
        omega
    · have ht : trailingPercents (q ++ [b]) = 0 := by
        simp [trailingPercents, List.takeWhile_cons, hb]
      rw [ht]
      constructor
      · intro h
        exfalso
        have hl : (rangeRunes (q ++ [b])).getLast? = some 37 := by
          cases hr : rangeRunes (q ++ [b]) using List.reverseRecOn with
          | nil => rw [hr] at h; simp at h
          | append_singleton rs r _ =>
            rw [hr, List.foldl_append] at h
            simp only [List.foldl_cons, List.foldl_nil, translateStep_escaped] at h
            simp at h
            simp [h.2]
        have := getLast_rangeRunes _ _ le_rfl hl
        simp at this
        exact hb this
      · intro h; omega

theorem strMatchFrom_error (E : RegexpPackage) (s p : List Nat) (i : Nat) (e : CompileError)
    (h : strMatchFrom E s p i = MatchResult.error (LuaError.invalidPattern e)) :
    E.compile (luaPatternToGoRegex p).1 = Except.error e := by
  simp only [strMatchFrom, luaPatternToGoRegex] at h ⊢
  split at h
  · simp_all
  · split at h
    · cases h
    · split_ifs at h

theorem strMatch_error (E : RegexpPackage) (s p : List Nat) (init : Option Int)
    (e : CompileError)
    (h : strMatch E s p init = MatchResult.error (LuaError.invalidPattern e)) :
    E.compile (luaPatternToGoRegex p).1 = Except.error e := by
  unfold strMatch at h
  simp only at h
  split_ifs at h
  · exact strMatchFrom_error E s p _ e h
  · exact strMatchFrom_error E s p _ e h

theorem gmatch_error (E : RegexpPackage) (s p : List Nat) (e : CompileError)
    (h : gmatch E s p = Except.error (LuaError.invalidPattern e)) :
    E.compile (luaPatternToGoRegex p).1 = Except.error e := by
  simp only [gmatch, luaPatternToGoRegex] at h ⊢
  split at h
  · simp_all
  · cases h

theorem gsub_error (E : RegexpPackage) (s p : List Nat) (r : Repl) (n : Option Int)
    (e : CompileError)
    (h : gsub E s p r n = Except.error (LuaError.invalidPattern e)) :
    E.compile (luaPatternToGoRegex p).1 = Except.error e := by
  simp only [gsub, luaPatternToGoRegex] at h ⊢
  split at h
  · cases h
  · split at h
    · simp_all
    · split at h <;> cases h

theorem translate_dangling_percent (p : List Nat) (h : EndsWithDanglingPercent p) :
    luaPatternToGoRegex p = ((luaPatternToGoRegex p.dropLast).1 ++ [37], none) := by
  unfold EndsWithDanglingPercent at h
  induction p using List.reverseRecOn with
  | nil => simp [trailingPercents] at h
  | append_singleton q b _ =>
    by_cases hb : b = 37
    · subst hb
      have ht : trailingPercents (q ++ [37]) = trailingPercents q + 1 := by
        simp [trailingPercents, List.takeWhile_cons]
      have hq : ((rangeRunes q).foldl translateStep ⟨[], false⟩).escaped = false := by
        cases he : ((rangeRunes q).foldl translateStep ⟨[], false⟩).escaped
        · rfl
        · have := (escaped_iff_odd q).mp he
          omega
      simp only [luaPatternToGoRegex, List.dropLast_concat, rangeRunes_append_ascii q 37 (by omega),
        List.foldl_append, List.foldl_cons, List.foldl_nil, translateStep_escaped, hq]
      simp [translateStep, hq, encodeRune]
    · have ht : trailingPercents (q ++ [b]) = 0 := by
        simp [trailingPercents, List.takeWhile_cons, hb]
      omega

/-- C10, amended: on a pattern that ends with a dangling `%`, `luaPatternToGoRegex` returns
no error: its result is the translation of the pattern without that `%`, followed by a
literal `%`. `match`, `gmatch` and `gsub` raise `invalid pattern` on it only when
`regexp.Compile` rejects that expression. -/
theorem luaPatternToGoRegex_dangling_percent (p : List Nat) (h : EndsWithDanglingPercent p) :
    luaPatternToGoRegex p = ((luaPatternToGoRegex p.dropLast).1 ++ [37], none) ∧
    (∀ (E : RegexpPackage) (s : List Nat) (init : Option Int) (e : CompileError),
      strMatch E s p init = MatchResult.error (LuaError.invalidPattern e) →
        E.compile ((luaPatternToGoRegex p.dropLast).1 ++ [37]) = Except.error e) ∧
    (∀ (E : RegexpPackage) (s : List Nat) (e : CompileError),
      gmatch E s p = Except.error (LuaError.invalidPattern e) →
        E.compile ((luaPatternToGoRegex p.dropLast).1 ++ [37]) = Except.error e) ∧
    (∀ (E : RegexpPackage) (s : List Nat) (r : Repl) (n : Option Int) (e : CompileError),
      gsub E s p r n = Except.error (LuaError.invalidPattern e) →
        E.compile ((luaPatternToGoRegex p.dropLast).1 ++ [37]) = Except.error e) := by
  have ht := translate_dangling_percent p h
  have h1 : (luaPatternToGoRegex p).1 = (luaPatternToGoRegex p.dropLast).1 ++ [37] := by
    rw [ht]
  refine ⟨ht, ?_, ?_, ?_⟩
  · intro E s init e he
    rw [← h1]
    exact strMatch_error E s p init e he
  · intro E s e he
    rw [← h1]
    exact gmatch_error E s p e he
  · intro E s r n e he
    rw [← h1]
    exact gsub_error E s p r n e he

/-- Instance of the dangling-`%` property at the pattern `"a%"`, whose last byte is a `%`
that nothing escapes. -/
theorem luaPatternToGoRegex_dangling_percent_witness :
    EndsWithDanglingPercent (lit "a%") ∧
    luaPatternToGoRegex (lit "a%") = (lit "a%", none) :=
  ⟨by unfold EndsWithDanglingPercent; decide,
    (luaPatternToGoRegex_dangling_percent (lit "a%")
      (by unfold EndsWithDanglingPercent; decide)).1.trans (by decide)⟩

/-! ## Replacement templates -/

theorem encodeRune_low (r : Nat) (h : r < 128) : encodeRune r = [r] := by
  simp [encodeRune, h]

theorem encodeRune_high (r : Nat) (h : 128 ≤ r) : ∀ b ∈ encodeRune r, 128 ≤ b := by
  intro b hb
  unfold encodeRune at hb
  split_ifs at hb <;> simp at hb <;> omega

theorem encodeRune_two (c b1 : Nat) (hc : 0xC2 ≤ c ∧ c < 0xE0) (h1 : isCont b1 = true) :
    encodeRune (c % 32 * 64 + b1 % 64) = [c, b1] := by
  simp only [isCont, Bool.and_eq_true, decide_eq_true_eq] at h1
  rw [encodeRune, if_neg (by omega), if_pos (by omega)]
  simp only [List.cons.injEq, and_true]
  constructor <;> omega

theorem encodeRune_three (c b1 b2 : Nat) (hc : 0xE0 ≤ c ∧ c < 0xF0)
    (h1 : acceptLo c ≤ b1 ∧ b1 ≤ acceptHi c ∧ isCont b2 = true) :
    encodeRune (c % 16 * 4096 + b1 % 64 * 64 + b2 % 64) = [c, b1, b2] := by
  simp only [isCont, Bool.and_eq_true, decide_eq_true_eq] at h1
  have hb : 128 ≤ b1 ∧ b1 ≤ 191 ∧ (c = 224 → 160 ≤ b1) ∧ (c = 237 → b1 ≤ 159) := by
    unfold acceptLo acceptHi at h1
    split_ifs at h1 <;> omega
  rw [encodeRune, if_neg (by omega), if_neg (by omega), if_neg (by omega), if_pos (by omega)]
  simp only [List.cons.injEq, and_true]
  refine ⟨?_, ?_, ?_⟩ <;> omega

theorem encodeRune_four (c b1 b2 b3 : Nat) (hc : 0xF0 ≤ c ∧ c < 0xF5)
    (h1 : acceptLo c ≤ b1 ∧ b1 ≤ acceptHi c ∧ isCont b2 = true ∧ isCont b3 = true) :
    encodeRune (c % 8 * 262144 + b1 % 64 * 4096 + b2 % 64 * 64 + b3 % 64) = [c, b1, b2, b3] := by
  simp only [isCont, Bool.and_eq_true, decide_eq_true_eq] at h1
  have hb : 128 ≤ b1 ∧ b1 ≤ 191 ∧ (c = 240 → 144 ≤ b1) ∧ (c = 244 → b1 ≤ 143) := by
    unfold acceptLo acceptHi at h1
    split_ifs at h1 <;> omega
  rw [encodeRune, if_neg (by omega), if_neg (by omega), if_neg (by omega), if_neg (by omega)]
  simp only [List.cons.injEq, and_true]
  refine ⟨?_, ?_, ?_, ?_⟩ <;> omega

theorem encodeRune_decodeRune (c : Nat) (t : List Nat)
    (hv : ¬ ((decodeRune (c :: t)).1 = runeError ∧ (decodeRune (c :: t)).2 = 1)) :
    encodeRune (decodeRune (c :: t)).1 = (c :: t).take (decodeRune (c :: t)).2 := by
  simp only [decodeRune] at hv ⊢
  split_ifs at hv ⊢ with h1 h2 h3 h4
  · simp [encodeRune, h1]
  · rcases t with _ | ⟨b1, t⟩
    · simp at hv
    · simp only at hv ⊢
      split_ifs at hv ⊢ with h5
      · simpa using encodeRune_two c b1 h2 h5
      · simp at hv
  · rcases t with _ | ⟨b1, _ | ⟨b2, t⟩⟩
    · simp at hv
    · simp at hv
    · simp only at hv ⊢
      split_ifs at hv ⊢ with h5
      · simpa using encodeRune_three c b1 b2 h3 h5
      · simp at hv
  · rcases t with _ | ⟨b1, _ | ⟨b2, _ | ⟨b3, t⟩⟩⟩
    · simp at hv
    · simp at hv
    · simp at hv
    · simp only at hv ⊢
      split_ifs at hv ⊢ with h5
      · simpa using encodeRune_four c b1 b2 b3 h4 h5
      · simp at hv
  · simp at hv

theorem validString_cons (c : Nat) (t : List Nat) (h : validString (c :: t) = true) :
    ¬ ((decodeRune (c :: t)).1 = runeError ∧ (decodeRune (c :: t)).2 = 1) ∧
    validString ((c :: t).drop (decodeRune (c :: t)).2) = true := by
  unfold validString at h ⊢
  rw [rangeDecodeAux_cons, List.all_cons] at h
  simp only [Bool.and_eq_true, Bool.not_eq_true', Bool.and_eq_false_imp, beq_iff_eq] at h
  refine ⟨?_, h.2⟩
  rintro ⟨h1, h2⟩
  have := h.1 h1
  simp [h2] at this

theorem expandSpec_cons_ne (captures : List (List Nat)) (c : Nat) (l : List Nat)
    (hc : c ≠ 37) : expandSpec captures (c :: l) = c :: expandSpec captures l := by
  cases l with
  | nil => simp [expandSpec]
  | cons d rest => simp [expandSpec, hc]

theorem expandSpec_high_append (captures : List (List Nat)) :
    ∀ (pre rest : List Nat), (∀ b ∈ pre, 128 ≤ b) →
      expandSpec captures (pre ++ rest) = pre ++ expandSpec captures rest := by
  intro pre
  induction pre with
  | nil => intro rest _; rfl
  | cons c pre ih =>
    intro rest h
    have hc : 128 ≤ c := h c (by simp)
    rw [List.cons_append, expandSpec_cons_ne captures c _ (by omega),
      ih rest (fun b hb => h b (by simp [hb]))]
    rfl

theorem expandSpec_rune (captures : List (List Nat)) (r : Nat) (rest : List Nat)
    (hr : r ≠ 37) :
    expandSpec captures (encodeRune r ++ rest) = encodeRune r ++ expandSpec captures rest := by
  by_cases h : r < 128
  · rw [encodeRune_low r h]
    exact expandSpec_cons_ne captures r rest hr
  · exact expandSpec_high_append captures _ rest (encodeRune_high r (by omega))

theorem expandSpec_percent_rune (captures : List (List Nat)) (r : Nat) (rest : List Nat)
    (hr : ¬ (48 ≤ r ∧ r ≤ 57)) :
    expandSpec captures (37 :: (encodeRune r ++ rest))
      = encodeRune r ++ expandSpec captures rest := by
  by_cases h : r < 128
  · rw [encodeRune_low r h]
    simp [expandSpec, expandEscape, hr]
  · have hhigh := encodeRune_high r (by omega)
    cases he : encodeRune r with
    | nil => simp [encodeRune] at he; split_ifs at he
    | cons c more =>
      rw [he] at hhigh
      have hc : 128 ≤ c := hhigh c (by simp)
      have hnd : ¬ (48 ≤ c ∧ c ≤ 57) := by omega
      simp only [List.cons_append, expandSpec, expandEscape, hnd, if_false, if_true,
        List.append_eq, List.nil_append]
      rw [expandSpec_high_append captures more rest (fun b hb => hhigh b (by simp [hb]))]

theorem expand_fold (captures : List (List Nat)) (hcap : captures ≠ []) :
    ∀ (n : Nat) (s : List Nat), s.length ≤ n → validString s = true →
      ∀ (res : List Nat) (esc : Bool),
        ∃ st, (rangeRunes s).foldl (expandStep captures) (some ⟨res, esc⟩) = some st ∧
          (if st.escaped then st.result ++ [37] else st.result)
            = res ++ expandSpec captures ((if esc then [37] else []) ++ s) := by
  intro n
  induction n with
  | zero =>
    intro s hs _ res esc
    have : s = [] := List.length_eq_zero.mp (by omega)
    subst this
    refine ⟨⟨res, esc⟩, rfl, ?_⟩
    cases esc <;> simp [expandSpec]
  | succ n ih =>
    intro s hs hv res esc
    cases s with
    | nil =>
      refine ⟨⟨res, esc⟩, rfl, ?_⟩
      cases esc <;> simp [expandSpec]
    | cons c t =>
      obtain ⟨hv1, hv2⟩ := validString_cons c t hv
      have hw1 := decodeRune_width_pos c t
      have henc := encodeRune_decodeRune c t hv1
      have hsplit : c :: t = encodeRune (decodeRune (c :: t)).1
          ++ (c :: t).drop (decodeRune (c :: t)).2 := by
        rw [henc, List.take_append_drop]
      have hlen : ((c :: t).drop (decodeRune (c :: t)).2).length ≤ n := by
        rw [List.length_drop]
        simp only [List.length_cons] at hs ⊢
        omega
      rw [rangeRunes_cons, List.foldl_cons]
      generalize (decodeRune (c :: t)).1 = r at hsplit henc
      generalize (c :: t).drop (decodeRune (c :: t)).2 = rest at hsplit hlen hv2
      rw [hsplit]
      cases esc with
      | true =>
        by_cases hd : 49 ≤ r ∧ r ≤ 57
        · obtain ⟨st, h1, h2⟩ := ih rest hlen hv2
            (res ++ (if r - 48 < captures.length then captures.getD (r - 48) [] else [])) false
          refine ⟨st, ?_, ?_⟩
          · rw [← h1]
            simp only [expandStep, hd, and_self, if_true]
            split_ifs <;> simp
          · rw [h2, encodeRune_low r (by omega)]
            have hd2 : 48 ≤ r ∧ r ≤ 57 := by omega
            simp only [if_true, List.cons_append, List.nil_append, expandSpec, expandEscape, hd2,
              and_self, Bool.false_eq_true, if_false, List.append_assoc]
            congr 1
            split_ifs with hl
            · rfl
            · simp [List.getElem?_eq_none (by omega : captures.length ≤ r - 48)]
        · by_cases h0 : r = 48
          · subst h0
            obtain ⟨c0, crest, rfl⟩ := List.exists_cons_of_ne_nil hcap
            obtain ⟨st, h1, h2⟩ := ih rest hlen hv2 (res ++ c0) false
            refine ⟨st, ?_, ?_⟩
            · rw [← h1]; simp [expandStep]
            · rw [h2]
              simp [encodeRune, expandSpec, expandEscape]
          · obtain ⟨st, h1, h2⟩ := ih rest hlen hv2 (res ++ encodeRune r) false
            refine ⟨st, ?_, ?_⟩
            · rw [← h1]; simp [expandStep, hd, h0]
            · rw [h2]
              simp only [if_true, List.cons_append, List.nil_append, Bool.false_eq_true, if_false]
              rw [expandSpec_percent_rune captures r rest (by omega), List.append_assoc]
      | false =>
        by_cases hp : r = 37
        · subst hp
          obtain ⟨st, h1, h2⟩ := ih rest hlen hv2 res true
          refine ⟨st, ?_, ?_⟩
          · rw [← h1]; simp [expandStep]
          · rw [h2]
            simp [encodeRune]
        · obtain ⟨st, h1, h2⟩ := ih rest hlen hv2 (res ++ encodeRune r) false
          refine ⟨st, ?_, ?_⟩
          · rw [← h1]; simp [expandStep, hp]
          · rw [h2]
            simp only [Bool.false_eq_true, if_false, List.nil_append]
            rw [expandSpec_rune captures r rest hp, List.append_assoc]

theorem expandLuaReplacement_valid (repl : List Nat) (captures : List (List Nat))
    (hv : validString repl = true) (hcap : captures ≠ []) :
    expandLuaReplacement repl captures = some (expandSpec captures repl) := by
  obtain ⟨st, h1, h2⟩ := expand_fold captures hcap repl.length repl le_rfl hv [] false
  simp only [Bool.false_eq_true, if_false, List.nil_append] at h2
  simp only [expandLuaReplacement, h1, encodeRune]
  simp [← h2]

theorem replaceAllLoop_congr {σ : Type} (re : Regexp) (src : List Nat)
    (repl1 repl2 : σ → List Nat → Option (List Nat × σ))
    (h : ∀ (st : σ) (pos : Nat) (mt : Match), re.doExecute src pos = some mt →
      repl1 st (slice src mt.first mt.last) = repl2 st (slice src mt.first mt.last)) :
    ∀ (fuel lastMatchEnd searchPos : Nat) (buf : List Nat) (st : σ),
      replaceAllLoop re src repl1 fuel lastMatchEnd searchPos buf st
        = replaceAllLoop re src repl2 fuel lastMatchEnd searchPos buf st := by
  intro fuel
  induction fuel with
  | zero => intro l p buf st; rfl
  | succ f ih =>
    intro l p buf st
    simp only [replaceAllLoop]
    split_ifs with hp
    · cases hm : re.doExecute src p with
      | none => rfl
      | some m =>
        dsimp only
        rw [h st p m hm]
        split
        · rfl
        · exact ih _ _ _ _
    · rfl

theorem gsubCallback_template (re : Regexp) (repl : List Nat) (maxReplacements count : Int)
    (m : List Nat) (groups : List (List Nat)) (hv : validString repl = true)
    (hcap : re.findStringSubmatch m = some (m :: groups)) :
    gsubCallback re (fun captures => expandLuaReplacement repl captures) maxReplacements count m
      = gsubCallback re (fun captures => some (expandSpec captures repl)) maxReplacements
          count m ∧
    (¬ (maxReplacements ≥ 0 ∧ count ≥ maxReplacements) →
      gsubCallback re (fun captures => expandLuaReplacement repl captures) maxReplacements
        count m = some (expandSpec (m :: groups) repl, count + 1)) := by
  have he := expandLuaReplacement_valid repl (m :: groups) hv (by simp)
  constructor
  · simp only [gsubCallback, hcap, Option.getD_some, he]
  · intro hlim
    simp only [gsubCallback, hcap, Option.getD_some, he, if_neg hlim]

/-- C8, amended: in `gsub` with a string replacement that is valid UTF-8, on a subject
whose matches are matched as a whole when the pattern is run again on the matched text
alone (the way `gsub` obtains the captures), every match is replaced by the expansion
`expandSpec` of the template over the match and its captures: `%0` is the whole match, `%N`
capture `N` or nothing, `%%` a `%`, `%` before another character that character, a final `%`
a `%`, and everything else is copied. No template error is reported: `gsub` returns what it
returns for the function replacement that computes this expansion. -/
theorem gsub_string_template (E : RegexpPackage) (s p repl : List Nat) (n : Option Int)
    (re : Regexp) (hv : validString repl = true)
    (hc : E.compile (luaPatternToGoRegex p).1 = Except.ok re)
    (hrerun : ∀ (pos : Nat) (mt : Match), re.doExecute s pos = some mt →
      ∃ groups, re.findStringSubmatch (slice s mt.first mt.last)
        = some (slice s mt.first mt.last :: groups)) :
    gsub E s p (Repl.str repl) n
      = gsub E s p (Repl.func (fun captures => expandSpec captures repl)) n ∧
    ∀ (pos : Nat) (mt : Match) (maxReplacements count : Int),
      re.doExecute s pos = some mt → ¬ (maxReplacements ≥ 0 ∧ count ≥ maxReplacements) →
      ∃ groups, re.findStringSubmatch (slice s mt.first mt.last)
          = some (slice s mt.first mt.last :: groups) ∧
        gsubCallback re (fun captures => expandLuaReplacement repl captures) maxReplacements
          count (slice s mt.first mt.last)
          = some (expandSpec (slice s mt.first mt.last :: groups) repl, count + 1) := by
  constructor
  · simp only [gsub, replacementOf, luaPatternToGoRegex] at hc ⊢
    simp only [hc, replaceAllStringFunc]
    congr 1
    apply replaceAllLoop_congr
    intro st pos mt hm
    obtain ⟨groups, hg⟩ := hrerun pos mt hm
    exact (gsubCallback_template re repl _ st _ groups hv hg).1
  · intro pos mt maxReplacements count hm hlim
    obtain ⟨groups, hg⟩ := hrerun pos mt hm
    exact ⟨groups, hg, (gsubCallback_template re repl _ count _ groups hv hg).2 hlim⟩

theorem rerun_literal_b : ∀ (pos : Nat) (mt : Match),
    (regexpOf [[⟨Atom.lit 98, Quant.one⟩]]).doExecute (lit "ab") pos = some mt →
      ∃ groups, (regexpOf [[⟨Atom.lit 98, Quant.one⟩]]).findStringSubmatch
          (slice (lit "ab") mt.first mt.last)
        = some (slice (lit "ab") mt.first mt.last :: groups) := by
  intro pos mt h
  have hmt : mt = ⟨1, 2, []⟩ := by
    rcases pos with _ | _ | _ | k
    · exact (Option.some.inj h).symm
    · exact (Option.some.inj h).symm
    · have hn : (regexpOf [[⟨Atom.lit 98, Quant.one⟩]]).doExecute (lit "ab") 2 = none := by
        decide
      rw [show (0 + 1 + 1 : Nat) = 2 from rfl, hn] at h
      cases h
    · simp [regexpOf, lit] at h
  subst hmt
  exact ⟨[], by decide⟩

/-- Instance of the template expansion in `gsub("ab", "b", "<%0|%1|%%|%a|%")`: the match `"b"`
is replaced by `"<b||%|a|%"`. -/
theorem gsub_string_template_witness :
    validString (lit "<%0|%1|%%|%a|%") = true ∧
    gsub goRegexp (lit "ab") (lit "b") (Repl.str (lit "<%0|%1|%%|%a|%")) none
      = gsub goRegexp (lit "ab") (lit "b")
          (Repl.func (fun captures => expandSpec captures (lit "<%0|%1|%%|%a|%"))) none ∧
    gsub goRegexp (lit "ab") (lit "b") (Repl.str (lit "<%0|%1|%%|%a|%")) none
      = Except.ok (lit "a<b||%|a|%", 1) :=
  ⟨by decide,
    (gsub_string_template goRegexp (lit "ab") (lit "b") (lit "<%0|%1|%%|%a|%") none
      (regexpOf [[⟨Atom.lit 98, Quant.one⟩]]) (by decide) rfl rerun_literal_b).1, rfl⟩

/-- With an expression that looks at the text before the match, the second run of `gsub` on
the matched text alone can fail: for the Go expression `\Bb`, `"ab"` has the match `"b"`,
the text `"b"` has none, the captures are nil and `%0` indexes an empty slice. -/
theorem gsub_rerun_on_match_panics :
    luaPatternToGoRegex [92, 66, 98] = ([92, 66, 98], none) ∧
    notBoundaryB.doExecute (lit "ab") 0 = some ⟨1, 2, []⟩ ∧
    notBoundaryB.findStringSubmatch (lit "b") = none ∧
    gsub goRegexpNotBoundaryB (lit "ab") [92, 66, 98] (Repl.str (lit "%0")) none
      = Except.error LuaError.panic :=
  ⟨by decide, by decide, by decide, rfl⟩

end GoLua
